import Mathlib

/-!
Verification of the terminal Minesweeper board model (src/main.rs).

The Rust source is shallowly embedded: the `MSGame` struct becomes a Lean
structure over `Nat` fields and a flat `List Tile` board, `usize` wrapping
arithmetic is made explicit modulo `2 ^ 64`, and the flood-fill loop of
`open_tile` becomes a well-founded recursion over the explicit worklist that
the Rust loop walks with an index.  Places where the Rust code would panic
(out-of-bounds tile access, which the source treats as a programming error)
are modelled as no-ops; every theorem below that depends on such a branch
carries the in-bounds hypotheses that hold in every actual run.
-/

/-- Result of one turn; mirrors `enum TurnResult` in the source. -/
inductive TurnResult where
  | Continue
  | Lose
  | Win
  | Quit
deriving DecidableEq, Repr

/-- Cursor movement direction; mirrors `enum Direction`. -/
inductive Direction where
  | Up
  | Down
  | Left
  | Right
deriving DecidableEq, Repr

/-- Tile visibility; mirrors `enum TileVis`. -/
inductive TileVis where
  | Hidden
  | Flag
  | Open
deriving DecidableEq, Repr

/-- Tile contents; mirrors `enum TileContents`.  The `u8` neighbor count is
modelled as `Nat`: construction only ever increments it from 0 at most once
per adjacent mine (at most 8 times), so the `u8` arithmetic never wraps. -/
inductive TileContents where
  | Safe (count : Nat)
  | Mine
deriving DecidableEq, Repr

/-- One grid cell; mirrors `struct Tile`. -/
structure Tile where
  contents : TileContents
  visibility : TileVis
deriving DecidableEq, Repr

/-- Mirrors `Tile::new`. -/
def Tile.new (mine : Bool) : Tile :=
  { contents := if mine then TileContents.Mine else TileContents.Safe 0
    visibility := TileVis.Hidden }

instance : Inhabited Tile := ⟨Tile.new false⟩

/-- Number of values of `usize` on the 64-bit targets the game is built for. -/
def USIZE : Nat := 2 ^ 64

/-- Rust `a.wrapping_add(d as usize)` for `a : usize`, `d : i32`: the cast of
`d` to `usize` is its Euclidean residue mod `2 ^ 64`, and the addition wraps. -/
def wrapping_add (a : Nat) (d : Int) : Nat :=
  (a + (d % (USIZE : Int)).toNat) % USIZE

/-- Rust `a.wrapping_sub(b)` on `usize`. -/
def wrapping_sub (a b : Nat) : Nat :=
  (a + (USIZE - b % USIZE)) % USIZE

/-- The eight relative neighbor offsets, in source order
`[(-1,-1),(0,-1),(1,-1),(-1,0),(1,0),(-1,1),(0,1),(1,1)]`. -/
def NEIGHBOR_OFFSETS : List (Int × Int) :=
  [(-1, -1), (0, -1), (1, -1), (-1, 0), (1, 0), (-1, 1), (0, 1), (1, 1)]

/-- A grid position `(x, y)`. -/
abbrev Pos := Nat × Nat

/-- All grid positions in the row-major order both `count_neighbors` and
`check_board` scan them: `y` in `0..height` outer, `x` in `0..width` inner. -/
def allPositions (w h : Nat) : List Pos :=
  (List.range h).flatMap (fun y => (List.range w).map (fun x => (x, y)))

/-- Mirrors `struct MSGame`.  The `Vec<Tile>` board is a `List Tile`. -/
structure MSGame where
  width : Nat
  height : Nat
  cursor_x : Nat
  cursor_y : Nat
  board : List Tile
  mines : Nat
  flags : Nat
deriving DecidableEq, Repr

/-- Mirrors `MSGame::index_of`. -/
def MSGame.index_of (g : MSGame) (x y : Nat) : Nat :=
  x + y * g.width

/-- Mirrors `MSGame::valid_pos`. -/
abbrev MSGame.valid_pos (g : MSGame) (x y : Nat) : Prop :=
  x < g.width ∧ y < g.height

/-- Mirrors `MSGame::get`.  The source panics on an invalid position; the
model totalises with the default tile, which no theorem relies on: all
accesses proved about happen at positions the source also reads. -/
def MSGame.get (g : MSGame) (x y : Nat) : Tile :=
  (g.board[g.index_of x y]?).getD default

/-- Is the contents a mine?  (Rust `if let TileContents::Mine = ..`.) -/
def isMineB : TileContents → Bool
  | TileContents.Mine => true
  | TileContents.Safe _ => false

/-- Is the contents safe?  (Rust `if let TileContents::Safe(_) = ..`.) -/
def isSafeB : TileContents → Bool
  | TileContents.Mine => false
  | TileContents.Safe _ => true

/-- One increment of `count_neighbors`: `get_mut(x, y)` and, when the tile is
`Safe(count)`, store `Safe(count + 1)`; index `j` is the flat board index. -/
def bump (b : List Tile) (j : Nat) : List Tile :=
  match b[j]? with
  | some t =>
    match t.contents with
    | TileContents.Safe c => b.set j (Tile.mk (TileContents.Safe (c + 1)) t.visibility)
    | TileContents.Mine => b
  | none => b

/-- One offset step of the inner `count_neighbors` loop for a mine at `c`:
if the wrapped target is a valid position, bump its tile. -/
def offsetStep (w h : Nat) (c : Pos) (b' : List Tile) (d : Int × Int) : List Tile :=
  if wrapping_add c.1 d.1 < w ∧ wrapping_add c.2 d.2 < h then
    bump b' (wrapping_add c.1 d.1 + wrapping_add c.2 d.2 * w)
  else b'

/-- The inner loop of `count_neighbors` for one mine at `c`, over the
8 offsets. -/
def mineSpread (w h : Nat) (c : Pos) (b : List Tile) : List Tile :=
  NEIGHBOR_OFFSETS.foldl (offsetStep w h c) b

/-- One iteration of the outer `count_neighbors` loops, centred at `c`. -/
def countStep (w h : Nat) (b : List Tile) (c : Pos) : List Tile :=
  if isMineB ((b[c.1 + c.2 * w]?).getD default).contents then mineSpread w h c b else b

/-- Mirrors `MSGame::count_neighbors`. -/
def MSGame.count_neighbors (g : MSGame) : MSGame :=
  { g with board := (allPositions g.width g.height).foldl (countStep g.width g.height) g.board }

/-- The board `MSGame::new` builds before shuffling:
`size.saturating_sub(mines)` safe tiles followed by `mines` mine tiles.
`Nat` subtraction is exactly `saturating_sub`. -/
def MSGame.newBoard (width height mines : Nat) : List Tile :=
  List.replicate (width * height - mines) (Tile.new false) ++
    List.replicate mines (Tile.new true)

/-- Mirrors `MSGame::new`.  The only randomness in the program is the shuffle
of `newBoard`; the shuffled board is passed in as `board`, and every theorem
about construction quantifies over all permutations of `newBoard`. -/
def MSGame.new (width height mines : Nat) (board : List Tile) : MSGame :=
  MSGame.count_neighbors
    { width := width, height := height, cursor_x := 0, cursor_y := 0
      board := board, mines := mines, flags := 0 }

/-- Mirrors `MSGame::open_mines`: every mine tile becomes `Open`. -/
def MSGame.open_mines (g : MSGame) : MSGame :=
  { g with board := g.board.map (fun t =>
      match t.contents with
      | TileContents.Mine => Tile.mk t.contents TileVis.Open
      | TileContents.Safe _ => t) }

/-- The scan of `check_board` over the remaining positions, with the
`explored` accumulator.  Returns the turn result together with the board
state after the call (`open_mines` runs exactly when a `Lose` is returned). -/
def checkAux (g : MSGame) : List Pos → Bool → TurnResult × MSGame
  | [], explored => (if explored then TurnResult.Win else TurnResult.Continue, g)
  | p :: rest, explored =>
    match (g.get p.1 p.2).visibility, (g.get p.1 p.2).contents with
    | TileVis.Open, TileContents.Mine => (TurnResult.Lose, g.open_mines)
    | TileVis.Hidden, TileContents.Safe _ => checkAux g rest false
    | _, _ => checkAux g rest explored

/-- Mirrors `MSGame::check_board` together with its `open_mines` side effect. -/
def MSGame.check_board (g : MSGame) : TurnResult × MSGame :=
  checkAux g (allPositions g.width g.height) true

/-- Mirrors `MSGame::open_single_tile`: set the tile `Open` if it is `Hidden`.
The source indexes the vector directly (panicking out of bounds); the model
leaves the game unchanged there. -/
def MSGame.open_single_tile (g : MSGame) (x y : Nat) : MSGame :=
  match g.board[g.index_of x y]? with
  | some t =>
    if t.visibility = TileVis.Hidden then
      { g with board := g.board.set (g.index_of x y) (Tile.mk t.contents TileVis.Open) }
    else g
  | none => g

/-- The neighbors `open_tile` pushes after opening a `Safe(0)` tile at `p`:
each wrapped offset target that is a valid position and not already `Open`. -/
def neighborsToPush (g : MSGame) (p : Pos) : List Pos :=
  NEIGHBOR_OFFSETS.filterMap (fun d =>
    let tx := wrapping_add p.1 d.1
    let ty := wrapping_add p.2 d.2
    if tx < g.width ∧ ty < g.height then
      if (g.get tx ty).visibility = TileVis.Open then none else some (tx, ty)
    else none)

/-- Number of Hidden tiles; the termination measure of the flood fill. -/
def hiddenCount (b : List Tile) : Nat :=
  b.countP (fun t => decide (t.visibility = TileVis.Hidden))

/-- Number of Flag tiles on the board. -/
def flagCount (b : List Tile) : Nat :=
  b.countP (fun t => decide (t.visibility = TileVis.Flag))

/-- The `while i < queue.len()` loop of `MSGame::open_tile`: `todo` is the
part of the queue from the loop index on; pushed positions append to it.
The in-bounds guard reflects that every processed position in a real run is
valid (the source `get` would panic otherwise). -/
def floodAux (g : MSGame) (todo : List Pos) : MSGame :=
  match todo with
  | [] => g
  | p :: rest =>
    if hv : (p.1 < g.width ∧ p.2 < g.height) ∧ g.index_of p.1 p.2 < g.board.length then
      if ht : (g.get p.1 p.2).visibility = TileVis.Hidden then
        if hs : (g.get p.1 p.2).contents = TileContents.Safe 0 then
          floodAux (g.open_single_tile p.1 p.2)
            (rest ++ neighborsToPush (g.open_single_tile p.1 p.2) p)
        else
          floodAux (g.open_single_tile p.1 p.2) rest
      else floodAux g rest
    else floodAux g rest
termination_by 9 * hiddenCount g.board + todo.length
decreasing_by
· obtain ⟨⟨hx, hy⟩, hlen⟩ := hv
  have hsome : g.board[g.index_of p.1 p.2]? = some g.board[g.index_of p.1 p.2] :=
    List.getElem?_eq_getElem hlen
  have hvis : g.board[g.index_of p.1 p.2].visibility = TileVis.Hidden := by
    have h0 := ht; unfold MSGame.get at h0; rw [hsome] at h0; exact h0
  have hopen : (g.open_single_tile p.1 p.2).board
      = g.board.set (g.index_of p.1 p.2)
          (Tile.mk g.board[g.index_of p.1 p.2].contents TileVis.Open) := by
    unfold MSGame.open_single_tile; rw [hsome]; simp [hvis]
  have hdec : hiddenCount (g.open_single_tile p.1 p.2).board + 1 = hiddenCount g.board := by
    unfold hiddenCount
    rw [hopen, List.countP_set _ _ _ _ hlen]
    have h2 : 0 < List.countP (fun t => decide (t.visibility = TileVis.Hidden)) g.board :=
      List.countP_pos_iff.mpr ⟨_, List.getElem_mem hlen, by simp [hvis]⟩
    simp [hvis]
    omega
  have hpush : (neighborsToPush (g.open_single_tile p.1 p.2) p).length ≤ 8 := by
    unfold neighborsToPush
    exact le_trans (List.length_filterMap_le _ _) (by decide)
  simp only [List.length_append, List.length_cons]
  rw [← hdec]
  omega
· obtain ⟨⟨hx, hy⟩, hlen⟩ := hv
  have hsome : g.board[g.index_of p.1 p.2]? = some g.board[g.index_of p.1 p.2] :=
    List.getElem?_eq_getElem hlen
  have hvis : g.board[g.index_of p.1 p.2].visibility = TileVis.Hidden := by
    have h0 := ht; unfold MSGame.get at h0; rw [hsome] at h0; exact h0
  have hopen : (g.open_single_tile p.1 p.2).board
      = g.board.set (g.index_of p.1 p.2)
          (Tile.mk g.board[g.index_of p.1 p.2].contents TileVis.Open) := by
    unfold MSGame.open_single_tile; rw [hsome]; simp [hvis]
  have hdec : hiddenCount (g.open_single_tile p.1 p.2).board + 1 = hiddenCount g.board := by
    unfold hiddenCount
    rw [hopen, List.countP_set _ _ _ _ hlen]
    have h2 : 0 < List.countP (fun t => decide (t.visibility = TileVis.Hidden)) g.board :=
      List.countP_pos_iff.mpr ⟨_, List.getElem_mem hlen, by simp [hvis]⟩
    simp [hvis]
    omega
  simp only [List.length_cons]
  rw [← hdec]
  omega
· simp only [List.length_cons]; omega
· simp only [List.length_cons]; omega

/-- Mirrors `MSGame::open_tile`: flood fill seeded with the cursor position. -/
def MSGame.open_tile (g : MSGame) : MSGame :=
  floodAux g [(g.cursor_x, g.cursor_y)]

/-- Mirrors `MSGame::flag_tile`.  The source decrements `flags` with `usize`
arithmetic; reachable states always have `flags ≥ 1` in that branch. -/
def MSGame.flag_tile (g : MSGame) : MSGame :=
  match g.board[g.index_of g.cursor_x g.cursor_y]? with
  | some t =>
    match t.visibility with
    | TileVis.Flag =>
      { g with board := g.board.set (g.index_of g.cursor_x g.cursor_y)
                 (Tile.mk t.contents TileVis.Hidden)
               flags := g.flags - 1 }
    | TileVis.Hidden =>
      { g with board := g.board.set (g.index_of g.cursor_x g.cursor_y)
                 (Tile.mk t.contents TileVis.Flag)
               flags := g.flags + 1 }
    | TileVis.Open => g
  | none => g

/-- Mirrors `MSGame::move_cursor`: decrement wraps via `wrapping_sub` then is
clamped with `min(dim - 1)`; increment wraps via `% dim`. -/
def MSGame.move_cursor (g : MSGame) : Direction → MSGame
  | Direction.Up => { g with cursor_y := min (wrapping_sub g.cursor_y 1) (g.height - 1) }
  | Direction.Down => { g with cursor_y := (g.cursor_y + 1) % g.height }
  | Direction.Left => { g with cursor_x := min (wrapping_sub g.cursor_x 1) (g.width - 1) }
  | Direction.Right => { g with cursor_x := (g.cursor_x + 1) % g.width }

/-- The `Remaining` value of the status line in `MSGame::draw`: the source
computes `self.mines - self.flags` in `usize`, so the model is the checked
subtraction; `none` is the underflow case, in which the Rust subtraction
panics in debug builds and wraps modulo `2 ^ 64` in release builds — in no
build does it produce the negative integer `mines - flags`. -/
def remainingDisplay (g : MSGame) : Option Nat :=
  if g.flags ≤ g.mines then some (g.mines - g.flags) else none

/-- Fuelled version of the flood-fill loop, used to state termination:
`none` means the fuel ran out before the loop index reached the queue end. -/
def floodAuxF : Nat → MSGame → List Pos → Option MSGame
  | 0, _, _ => none
  | _ + 1, g, [] => some g
  | fuel + 1, g, p :: rest =>
    if (p.1 < g.width ∧ p.2 < g.height) ∧ g.index_of p.1 p.2 < g.board.length then
      if (g.get p.1 p.2).visibility = TileVis.Hidden then
        if (g.get p.1 p.2).contents = TileContents.Safe 0 then
          floodAuxF fuel (g.open_single_tile p.1 p.2)
            (rest ++ neighborsToPush (g.open_single_tile p.1 p.2) p)
        else
          floodAuxF fuel (g.open_single_tile p.1 p.2) rest
      else floodAuxF fuel g rest
    else floodAuxF fuel g rest

/-- There is an `Open` mine at position `p` of the scanned grid. -/
def openMineAt (g : MSGame) (p : Pos) : Prop :=
  (g.get p.1 p.2).visibility = TileVis.Open ∧ (g.get p.1 p.2).contents = TileContents.Mine

instance (g : MSGame) (p : Pos) : Decidable (openMineAt g p) := by
  unfold openMineAt; infer_instance

/-- There is a `Hidden` safe tile at position `p` of the scanned grid. -/
def hiddenSafeAt (g : MSGame) (p : Pos) : Prop :=
  (g.get p.1 p.2).visibility = TileVis.Hidden ∧ isSafeB (g.get p.1 p.2).contents = true

instance (g : MSGame) (p : Pos) : Decidable (hiddenSafeAt g p) := by
  unfold hiddenSafeAt; infer_instance

/-- Exact grid adjacency: `q` is one of the up-to-8 neighbors of `p`,
expressed through the integer offset between them. -/
def adjacent (c p : Pos) : Bool :=
  decide ((((p.1 : Int) - c.1, (p.2 : Int) - c.2) : Int × Int) ∈ NEIGHBOR_OFFSETS)

/-- Brute-force recomputation of the neighbor mine count of `p`: scan every
grid position and count those that are adjacent to `p` and hold a mine. -/
def mineNeighborCount (w h : Nat) (b : List Tile) (p : Pos) : Nat :=
  ((allPositions w h).filter (fun c =>
    adjacent c p && isMineB ((b[c.1 + c.2 * w]?).getD default).contents)).length

/-- Number of offsets that carry the centre `c` (with the wrapping target
arithmetic of the source) onto the valid position with flat index `i`. -/
def hits (w h : Nat) (c : Pos) (i : Nat) : Nat :=
  NEIGHBOR_OFFSETS.countP (fun d =>
    decide (wrapping_add c.1 d.1 < w ∧ wrapping_add c.2 d.2 < h
      ∧ wrapping_add c.1 d.1 + wrapping_add c.2 d.2 * w = i))

/-- The total increment one `countStep` centred at `c` applies to the safe
tile at flat index `i`. -/
def contrib (w h : Nat) (b : List Tile) (c : Pos) (i : Nat) : Nat :=
  if isMineB ((b[c.1 + c.2 * w]?).getD default).contents then hits w h c i else 0

/-- One board operation reachable from the input loop `process_key`. -/
inductive Step : MSGame → MSGame → Prop where
  | move (g : MSGame) (d : Direction) : Step g (g.move_cursor d)
  | flag (g : MSGame) : Step g g.flag_tile
  | reveal (g : MSGame) : Step g g.open_tile
  | check (g : MSGame) : Step g (g.check_board).2

/-- Board states reachable from a fresh `MSGame::new w h m` board (over any
outcome `b` of the shuffle) by the operations of the input loop. -/
inductive Reachable (w h m : Nat) : MSGame → Prop where
  | init (b : List Tile) (hb : List.Perm b (MSGame.newBoard w h m)) :
      Reachable w h m (MSGame.new w h m b)
  | step (g g' : MSGame) (hg : Reachable w h m g) (hs : Step g g') : Reachable w h m g'

/-- A fresh 1-by-1 board with no mine: its single tile is safe and hidden. -/
def gNew110 : MSGame := MSGame.new 1 1 0 (MSGame.newBoard 1 1 0)

/-- The 1-by-1 no-mine board after flagging its single tile: a reachable
state with a flagged safe tile and with `flags > mines`. -/
def gFlag : MSGame := gNew110.flag_tile

/-- A one-tile game whose mine is open (the detonated state). -/
def gOpen : MSGame :=
  { width := 1, height := 1, cursor_x := 0, cursor_y := 0
    board := [Tile.mk TileContents.Mine TileVis.Open], mines := 1, flags := 0 }

/-- A fresh 2-by-2 board with one mine, used to instantiate theorems. -/
def gT : MSGame := MSGame.new 2 2 1 (MSGame.newBoard 2 2 1)

/-- A fresh 3-by-3 board whose single mine sits at the last position (2,2). -/
def g33 : MSGame := MSGame.new 3 3 1 (MSGame.newBoard 3 3 1)

/-! ### Basic facts about positions and wrapping arithmetic -/

theorem one_lt_USIZE : 1 < USIZE := by decide

theorem mem_allPositions (w h : Nat) (p : Pos) :
    p ∈ allPositions w h ↔ p.1 < w ∧ p.2 < h := by
  cases p with
  | mk x y =>
    simp only [allPositions, List.mem_flatMap, List.mem_map, List.mem_range]
    constructor
    · rintro ⟨y', hy', x', hx', heq⟩
      cases heq
      exact ⟨hx', hy'⟩
    · rintro ⟨hx, hy⟩
      exact ⟨y, hy, x, hx, rfl⟩

theorem wrapping_sub_one (a : Nat) (ha : a < USIZE) :
    wrapping_sub a 1 = if a = 0 then USIZE - 1 else a - 1 := by
  have hU : 1 < USIZE := one_lt_USIZE
  unfold wrapping_sub
  rw [Nat.mod_eq_of_lt hU]
  by_cases h0 : a = 0
  · subst h0
    simp [Nat.mod_eq_of_lt (show USIZE - 1 < USIZE by omega)]
  · have hsplit : a + (USIZE - 1) = (a - 1) + 1 * USIZE := by omega
    rw [hsplit, Nat.add_mul_mod_self_right, Nat.mod_eq_of_lt (by omega), if_neg h0]

/-- C8: cursor movement wraps on both axes in both directions and keeps the
cursor inside the grid.  Moving left from `x = 0` lands on `width - 1`,
moving right from `x = width - 1` lands on `0`, symmetrically for the
vertical axis, and otherwise the coordinate changes by exactly one; after
any move the cursor is still inside `[0, width) × [0, height)`. -/
theorem move_cursor_wraps (g : MSGame)
    (hw0 : 0 < g.width) (hh0 : 0 < g.height)
    (hwU : g.width < USIZE) (hhU : g.height < USIZE)
    (hx : g.cursor_x < g.width) (hy : g.cursor_y < g.height) :
    ((g.move_cursor Direction.Left).cursor_x
        = (if g.cursor_x = 0 then g.width - 1 else g.cursor_x - 1)
      ∧ (g.move_cursor Direction.Right).cursor_x
        = (if g.cursor_x = g.width - 1 then 0 else g.cursor_x + 1)
      ∧ (g.move_cursor Direction.Up).cursor_y
        = (if g.cursor_y = 0 then g.height - 1 else g.cursor_y - 1)
      ∧ (g.move_cursor Direction.Down).cursor_y
        = (if g.cursor_y = g.height - 1 then 0 else g.cursor_y + 1))
    ∧ (∀ d : Direction,
        (g.move_cursor d).cursor_x < g.width ∧ (g.move_cursor d).cursor_y < g.height) := by
  have hxU : g.cursor_x < USIZE := lt_trans hx hwU
  have hyU : g.cursor_y < USIZE := lt_trans hy hhU
  obtain ⟨gw, gh, gx, gy, gb, gm, gf⟩ := g
  simp only at hx hy hxU hyU hw0 hh0 hwU hhU
  constructor
  · refine ⟨?_, ?_, ?_, ?_⟩
    · show min (wrapping_sub gx 1) (gw - 1) = _
      rw [wrapping_sub_one _ hxU]
      by_cases h0 : gx = 0
      · rw [if_pos h0, if_pos h0]
        exact min_eq_right (by have := one_lt_USIZE; omega)
      · rw [if_neg h0, if_neg h0]
        exact min_eq_left (by omega)
    · show (gx + 1) % gw = _
      by_cases h0 : gx = gw - 1
      · rw [if_pos h0]
        have : gx + 1 = gw := by omega
        rw [this, Nat.mod_self]
      · rw [if_neg h0]
        exact Nat.mod_eq_of_lt (by omega)
    · show min (wrapping_sub gy 1) (gh - 1) = _
      rw [wrapping_sub_one _ hyU]
      by_cases h0 : gy = 0
      · rw [if_pos h0, if_pos h0]
        exact min_eq_right (by have := one_lt_USIZE; omega)
      · rw [if_neg h0, if_neg h0]
        exact min_eq_left (by omega)
    · show (gy + 1) % gh = _
      by_cases h0 : gy = gh - 1
      · rw [if_pos h0]
        have : gy + 1 = gh := by omega
        rw [this, Nat.mod_self]
      · rw [if_neg h0]
        exact Nat.mod_eq_of_lt (by omega)
  · intro d
    cases d with
    | Up =>
      refine ⟨hx, ?_⟩
      show min (wrapping_sub gy 1) (gh - 1) < gh
      have h1 : gh - 1 < gh := by omega
      exact lt_of_le_of_lt (min_le_right _ _) h1
    | Down => exact ⟨hx, Nat.mod_lt _ hh0⟩
    | Left =>
      refine ⟨?_, hy⟩
      show min (wrapping_sub gx 1) (gw - 1) < gw
      have h1 : gw - 1 < gw := by omega
      exact lt_of_le_of_lt (min_le_right _ _) h1
    | Right => exact ⟨Nat.mod_lt _ hw0, hy⟩

/-- Witness for C8 at the concrete 2-by-2 board `gT` (cursor at the origin):
moving left wraps to column `width - 1`. -/
theorem move_cursor_wraps_witness :
    (gT.move_cursor Direction.Left).cursor_x
      = (if gT.cursor_x = 0 then gT.width - 1 else gT.cursor_x - 1) :=
  (move_cursor_wraps gT (by decide) (by decide) (by decide) (by decide)
    (by decide) (by decide)).1.1

/-! ### The board scan of check_board -/

theorem open_mines_board (g : MSGame) (i : Nat) (t : Tile)
    (hit : (g.open_mines).board[i]? = some t) :
    ∃ t0 : Tile, g.board[i]? = some t0 ∧
      t = (match t0.contents with
           | TileContents.Mine => Tile.mk t0.contents TileVis.Open
           | TileContents.Safe _ => t0) := by
  unfold MSGame.open_mines at hit
  simp only [List.getElem?_map] at hit
  rcases hb : g.board[i]? with _ | t0
  · rw [hb] at hit; simp at hit
  · rw [hb] at hit
    simp only [Option.map_some'] at hit
    exact ⟨t0, rfl, (Option.some_injective _ hit).symm⟩

theorem checkAux_lose (g : MSGame) (L : List Pos) (e : Bool)
    (hL : ∃ p ∈ L, openMineAt g p) :
    checkAux g L e = (TurnResult.Lose, g.open_mines) := by
  induction L generalizing e with
  | nil => simp at hL
  | cons p rest ih =>
    by_cases hop : openMineAt g p
    · obtain ⟨h1, h2⟩ := hop
      simp [checkAux, h1, h2]
    · have hrest : ∃ r ∈ rest, openMineAt g r := by
        obtain ⟨q, hq, hom⟩ := hL
        rcases List.mem_cons.mp hq with h | h
        · exact absurd (h ▸ hom) hop
        · exact ⟨q, h, hom⟩
      rcases hv : (g.get p.1 p.2).visibility with _ | _ | _ <;>
        rcases hc : (g.get p.1 p.2).contents with c | _ <;>
        simp [checkAux, hv, hc, ih _ hrest]

theorem checkAux_no_mine (g : MSGame) (L : List Pos) (e : Bool)
    (hL : ∀ p ∈ L, ¬ openMineAt g p) :
    checkAux g L e
      = (if e ∧ (∀ p ∈ L, ¬ hiddenSafeAt g p) then TurnResult.Win
         else TurnResult.Continue, g) := by
  induction L generalizing e with
  | nil => cases e <;> simp [checkAux]
  | cons p rest ih =>
    have hrest : ∀ q ∈ rest, ¬ openMineAt g q :=
      fun q hq => hL q (List.mem_cons_of_mem _ hq)
    rcases hv : (g.get p.1 p.2).visibility with _ | _ | _ <;>
      rcases hc : (g.get p.1 p.2).contents with c | _
    · -- Hidden, Safe c: explored becomes false, head is a hidden safe tile
      have hhs : hiddenSafeAt g p := ⟨hv, by rw [hc]; rfl⟩
      rw [if_neg (fun hcon => hcon.2 p (List.mem_cons_self p rest) hhs)]
      simp only [checkAux, hv, hc]
      rw [ih false hrest]
      simp
    · -- Hidden, Mine: skipped, head is not a hidden safe tile
      have hns : ¬ hiddenSafeAt g p := fun hhs => by
        have h0 := hhs.2; rw [hc] at h0; exact Bool.false_ne_true h0
      simp only [checkAux, hv, hc]
      rw [ih e hrest]
      congr 1
      exact if_congr (and_congr_right fun _ => by
        simp [List.forall_mem_cons, hns]) rfl rfl
    · -- Flag, Safe c
      have hns : ¬ hiddenSafeAt g p := fun hhs => by
        have h0 := hhs.1; rw [hv] at h0; exact TileVis.noConfusion h0
      simp only [checkAux, hv, hc]
      rw [ih e hrest]
      congr 1
      exact if_congr (and_congr_right fun _ => by
        simp [List.forall_mem_cons, hns]) rfl rfl
    · -- Flag, Mine
      have hns : ¬ hiddenSafeAt g p := fun hhs => by
        have h0 := hhs.1; rw [hv] at h0; exact TileVis.noConfusion h0
      simp only [checkAux, hv, hc]
      rw [ih e hrest]
      congr 1
      exact if_congr (and_congr_right fun _ => by
        simp [List.forall_mem_cons, hns]) rfl rfl
    · -- Open, Safe c
      have hns : ¬ hiddenSafeAt g p := fun hhs => by
        have h0 := hhs.1; rw [hv] at h0; exact TileVis.noConfusion h0
      simp only [checkAux, hv, hc]
      rw [ih e hrest]
      congr 1
      exact if_congr (and_congr_right fun _ => by
        simp [List.forall_mem_cons, hns]) rfl rfl
    · -- Open, Mine: contradicts the no-open-mine hypothesis
      exact absurd ⟨hv, hc⟩ (hL p (List.mem_cons_self p rest))

/-- C5: if any tile of the scanned grid is an open mine, `check_board`
returns `Lose` (the `Lose` scan runs before the win check, so it takes
precedence even when every safe tile is open), and on the resulting board
every mine tile has visibility `Open`. -/
theorem check_board_open_mine_loses (g : MSGame)
    (hmine : ∃ p ∈ allPositions g.width g.height, openMineAt g p) :
    (g.check_board).1 = TurnResult.Lose
      ∧ ∀ (i : Nat) (t : Tile), (g.check_board).2.board[i]? = some t →
          t.contents = TileContents.Mine → t.visibility = TileVis.Open := by
  have heq : g.check_board = (TurnResult.Lose, g.open_mines) :=
    checkAux_lose g _ true hmine
  rw [heq]
  refine ⟨rfl, ?_⟩
  intro i t hit hm
  obtain ⟨t0, _, ht⟩ := open_mines_board g i t hit
  rcases hc : t0.contents with c | _
  · rw [hc] at ht; subst ht; rw [hc] at hm; exact TileContents.noConfusion hm
  · rw [hc] at ht; subst ht; rfl

/-- Witness for C5 at the one-tile detonated board `gOpen`. -/
theorem check_board_open_mine_loses_witness :
    (gOpen.check_board).1 = TurnResult.Lose :=
  (check_board_open_mine_loses gOpen (by decide)).1

/-- C1 (amended): `check_board` treats Flagged safe tiles as explored.  With
no open mine on the grid, it returns `Continue` exactly when some safe tile
is still `Hidden` (and leaves the board unchanged); a state whose safe tiles
are all Flagged or Open therefore evaluates to `Win`, not `Continue`. -/
theorem check_board_continue_iff_hidden_safe (g : MSGame)
    (hnm : ∀ p ∈ allPositions g.width g.height, ¬ openMineAt g p) :
    ((g.check_board).1 = TurnResult.Continue
        ↔ ∃ p ∈ allPositions g.width g.height, hiddenSafeAt g p)
      ∧ (g.check_board).2 = g := by
  have heq := checkAux_no_mine g (allPositions g.width g.height) true hnm
  unfold MSGame.check_board
  rw [heq]
  refine ⟨?_, rfl⟩
  by_cases hall : ∀ p ∈ allPositions g.width g.height, ¬ hiddenSafeAt g p
  · rw [if_pos ⟨rfl, hall⟩]
    exact iff_of_false (fun hW => TurnResult.noConfusion hW)
      (by rintro ⟨p, hp, hs⟩; exact hall p hp hs)
  · rw [if_neg (fun hcon => hall hcon.2)]
    refine iff_of_true rfl ?_
    push_neg at hall
    obtain ⟨p, hp, hs⟩ := hall
    exact ⟨p, hp, hs⟩

/-- Witness for C1 at the concrete state `gFlag` (its premise, no open mine,
holds there): the evaluation leaves the board untouched. -/
theorem check_board_continue_iff_hidden_safe_witness :
    (gFlag.check_board).2 = gFlag :=
  (check_board_continue_iff_hidden_safe gFlag (by decide)).2

/-- Counterexample to C1 as stated: `gFlag` is a reachable board state (flag
the only tile of a fresh mine-free 1-by-1 board) whose single safe tile is
Flagged and which has no open mine, yet `check_board` returns `Win`, not
`Continue` — the code counts Flagged safe tiles as explored. -/
theorem check_board_flagged_safe_cex :
    ((gFlag.get 0 0).contents = TileContents.Safe 0
        ∧ (gFlag.get 0 0).visibility = TileVis.Flag)
      ∧ (∀ p ∈ allPositions gFlag.width gFlag.height, ¬ openMineAt gFlag p)
      ∧ (gFlag.check_board).1 = TurnResult.Win
      ∧ (gFlag.check_board).1 ≠ TurnResult.Continue
      ∧ Reachable 1 1 0 gFlag :=
  ⟨by decide, by decide, by decide, by decide,
    Reachable.step _ _ (Reachable.init _ (List.Perm.refl _)) (Step.flag _)⟩

/-- C2: evaluating the constructor at `width = height = 1, mines = 2` (the
identity shuffle; any permutation gives the same length and multiset).  The
code does not clamp: `saturating_sub` only empties the safe-tile prefix, and
the mine loop still pushes `mines` tiles, so the board has 2 tiles on a
1-cell grid, both mines — more mine tiles than cells, contradicting the
specified clamp `min(mineCount, width*height)`. -/
theorem new_oversized_mines_eval :
    (MSGame.new 1 1 2 (MSGame.newBoard 1 1 2)).board.length = 2
      ∧ ∀ t ∈ (MSGame.new 1 1 2 (MSGame.newBoard 1 1 2)).board,
          t.contents = TileContents.Mine := by
  decide

/-- C3: the reachable state `gFlag` has `flags = 1 > 0 = mines`, and there
the status-line subtraction `mines - flags` underflows: the model returns
`none` (debug builds panic, release builds wrap to `2 ^ 64 - 1`); in no
build is the exact negative integer `mines - flags = -1` displayed. -/
theorem remaining_underflow_eval :
    Reachable 1 1 0 gFlag ∧ gFlag.mines < gFlag.flags
      ∧ remainingDisplay gFlag = none :=
  ⟨Reachable.step _ _ (Reachable.init _ (List.Perm.refl _)) (Step.flag _),
    by decide, by decide⟩

/-- C3 (amended behavior): whenever `flags ≤ mines` the displayed value is
the exact difference, and whenever `flags > mines` the computation
underflows instead of producing a negative number. -/
theorem remainingDisplay_spec (g : MSGame) :
    (g.flags ≤ g.mines → remainingDisplay g = some (g.mines - g.flags))
      ∧ (g.mines < g.flags → remainingDisplay g = none) := by
  constructor
  · intro h; simp [remainingDisplay, h]
  · intro h; simp [remainingDisplay, Nat.not_le.mpr h]
  
/-- Witness for the amended C3 statement at `gFlag`. -/
theorem remainingDisplay_spec_witness : remainingDisplay gFlag = none :=
  (remainingDisplay_spec gFlag).2 (by decide)

/-! ### Flood-fill reveal -/

theorem getElem?_some_lt {α : Type} {l : List α} {i : Nat} {a : α}
    (h : l[i]? = some a) : i < l.length := by
  obtain ⟨hl, _⟩ := List.getElem?_eq_some.mp h
  exact hl

theorem neighborsToPush_length_le (g : MSGame) (p : Pos) :
    (neighborsToPush g p).length ≤ 8 := by
  unfold neighborsToPush
  exact le_trans (List.length_filterMap_le _ _) (by simp [NEIGHBOR_OFFSETS])

theorem open_single_tile_fields (g : MSGame) (x y : Nat) :
    (g.open_single_tile x y).width = g.width
    ∧ (g.open_single_tile x y).height = g.height
    ∧ (g.open_single_tile x y).cursor_x = g.cursor_x
    ∧ (g.open_single_tile x y).cursor_y = g.cursor_y
    ∧ (g.open_single_tile x y).mines = g.mines
    ∧ (g.open_single_tile x y).flags = g.flags
    ∧ (g.open_single_tile x y).board.length = g.board.length := by
  unfold MSGame.open_single_tile
  rcases h : g.board[g.index_of x y]? with _ | t
  · simp
  · by_cases hv : t.visibility = TileVis.Hidden <;> simp [hv]

theorem open_single_tile_preserves (g : MSGame) (x y i : Nat) (t : Tile)
    (hb : g.board[i]? = some t) (hnh : t.visibility ≠ TileVis.Hidden) :
    (g.open_single_tile x y).board[i]? = some t := by
  unfold MSGame.open_single_tile
  rcases h : g.board[g.index_of x y]? with _ | t0
  · exact hb
  · by_cases hv : t0.visibility = TileVis.Hidden
    · by_cases hij : g.index_of x y = i
      · subst hij
        rw [h] at hb
        cases Option.some_injective _ hb
        exact absurd hv hnh
      · have hset : (g.board.set (g.index_of x y)
            (Tile.mk t0.contents TileVis.Open))[i]? = some t := by
          rw [List.getElem?_set_ne hij]; exact hb
        simpa [hv] using hset
    · simpa [hv] using hb

theorem open_single_tile_flagCount (g : MSGame) (x y : Nat) :
    flagCount (g.open_single_tile x y).board = flagCount g.board := by
  unfold MSGame.open_single_tile
  rcases h : g.board[g.index_of x y]? with _ | t
  · rfl
  · by_cases hv : t.visibility = TileVis.Hidden
    · have hlt : g.index_of x y < g.board.length := getElem?_some_lt h
      have hget : g.board[g.index_of x y] = t := by
        have h0 := List.getElem?_eq_getElem hlt
        rw [h] at h0
        exact (Option.some_injective _ h0).symm
      have hset : flagCount (g.board.set (g.index_of x y)
          (Tile.mk t.contents TileVis.Open)) = flagCount g.board := by
        unfold flagCount
        rw [List.countP_set _ _ _ _ hlt, hget, hv]
        simp
      simpa [hv] using hset
    · simp [hv]

theorem open_single_tile_hiddenCount (g : MSGame) (x y : Nat)
    (hlen : g.index_of x y < g.board.length)
    (hvis : (g.get x y).visibility = TileVis.Hidden) :
    hiddenCount (g.open_single_tile x y).board + 1 = hiddenCount g.board := by
  have hsome : g.board[g.index_of x y]? = some g.board[g.index_of x y] :=
    List.getElem?_eq_getElem hlen
  have hv : g.board[g.index_of x y].visibility = TileVis.Hidden := by
    have h0 := hvis; unfold MSGame.get at h0; rw [hsome] at h0; exact h0
  have h2 : 0 < List.countP (fun t => decide (t.visibility = TileVis.Hidden)) g.board :=
    List.countP_pos_iff.mpr ⟨_, List.getElem_mem hlen, by simp [hv]⟩
  have hmain : hiddenCount (g.board.set (g.index_of x y)
      (Tile.mk (g.board[g.index_of x y]).contents TileVis.Open)) + 1
        = hiddenCount g.board := by
    unfold hiddenCount
    rw [List.countP_set _ _ _ _ hlen, hv]
    simp
    omega
  simpa [MSGame.open_single_tile, hsome, hv] using hmain

theorem floodAux_fields (g : MSGame) (todo : List Pos) :
    (floodAux g todo).width = g.width ∧ (floodAux g todo).height = g.height
    ∧ (floodAux g todo).cursor_x = g.cursor_x ∧ (floodAux g todo).cursor_y = g.cursor_y
    ∧ (floodAux g todo).mines = g.mines ∧ (floodAux g todo).flags = g.flags
    ∧ (floodAux g todo).board.length = g.board.length
    ∧ flagCount (floodAux g todo).board = flagCount g.board := by
  induction g, todo using floodAux.induct with
  | case1 g =>
    rw [floodAux]
    exact ⟨rfl, rfl, rfl, rfl, rfl, rfl, rfl, rfl⟩
  | case2 g p rest hv ht hs ih =>
    rw [floodAux, dif_pos hv, dif_pos ht, dif_pos hs]
    obtain ⟨e1, e2, e3, e4, e5, e6, e7, e8⟩ := ih
    obtain ⟨f1, f2, f3, f4, f5, f6, f7⟩ := open_single_tile_fields g p.1 p.2
    exact ⟨e1.trans f1, e2.trans f2, e3.trans f3, e4.trans f4, e5.trans f5,
      e6.trans f6, e7.trans f7, e8.trans (open_single_tile_flagCount g p.1 p.2)⟩
  | case3 g p rest hv ht hs ih =>
    rw [floodAux, dif_pos hv, dif_pos ht, dif_neg hs]
    obtain ⟨e1, e2, e3, e4, e5, e6, e7, e8⟩ := ih
    obtain ⟨f1, f2, f3, f4, f5, f6, f7⟩ := open_single_tile_fields g p.1 p.2
    exact ⟨e1.trans f1, e2.trans f2, e3.trans f3, e4.trans f4, e5.trans f5,
      e6.trans f6, e7.trans f7, e8.trans (open_single_tile_flagCount g p.1 p.2)⟩
  | case4 g p rest hv ht ih =>
    rw [floodAux, dif_pos hv, dif_neg ht]
    exact ih
  | case5 g p rest hv ih =>
    rw [floodAux, dif_neg hv]
    exact ih

theorem floodAux_preserves_nonHidden (g : MSGame) (todo : List Pos) :
    ∀ (i : Nat) (t : Tile), g.board[i]? = some t → t.visibility ≠ TileVis.Hidden →
      (floodAux g todo).board[i]? = some t := by
  induction g, todo using floodAux.induct with
  | case1 g =>
    intro i t hb _
    rw [floodAux]
    exact hb
  | case2 g p rest hv ht hs ih =>
    intro i t hb hnh
    rw [floodAux, dif_pos hv, dif_pos ht, dif_pos hs]
    exact ih i t (open_single_tile_preserves g p.1 p.2 i t hb hnh) hnh
  | case3 g p rest hv ht hs ih =>
    intro i t hb hnh
    rw [floodAux, dif_pos hv, dif_pos ht, dif_neg hs]
    exact ih i t (open_single_tile_preserves g p.1 p.2 i t hb hnh) hnh
  | case4 g p rest hv ht ih =>
    intro i t hb hnh
    rw [floodAux, dif_pos hv, dif_neg ht]
    exact ih i t hb hnh
  | case5 g p rest hv ih =>
    intro i t hb hnh
    rw [floodAux, dif_neg hv]
    exact ih i t hb hnh

theorem floodAuxF_complete (fuel : Nat) : ∀ (g : MSGame) (todo : List Pos),
    9 * hiddenCount g.board + todo.length < fuel →
      floodAuxF fuel g todo = some (floodAux g todo) := by
  induction fuel with
  | zero =>
    intro g todo h
    exact absurd h (by omega)
  | succ n ih =>
    intro g todo h
    match todo with
    | [] =>
      rw [floodAux]
      rfl
    | p :: rest =>
      by_cases hv : (p.1 < g.width ∧ p.2 < g.height) ∧ g.index_of p.1 p.2 < g.board.length
      · by_cases ht : (g.get p.1 p.2).visibility = TileVis.Hidden
        · by_cases hs : (g.get p.1 p.2).contents = TileContents.Safe 0
          · rw [floodAux, dif_pos hv, dif_pos ht, dif_pos hs]
            rw [floodAuxF, if_pos hv, if_pos ht, if_pos hs]
            apply ih
            have hdec := open_single_tile_hiddenCount g p.1 p.2 hv.2 ht
            have hpush := neighborsToPush_length_le (g.open_single_tile p.1 p.2) p
            simp only [List.length_cons] at h
            simp only [List.length_append]
            omega
          · rw [floodAux, dif_pos hv, dif_pos ht, dif_neg hs]
            rw [floodAuxF, if_pos hv, if_pos ht, if_neg hs]
            apply ih
            have hdec := open_single_tile_hiddenCount g p.1 p.2 hv.2 ht
            simp only [List.length_cons] at h
            omega
        · rw [floodAux, dif_pos hv, dif_neg ht]
          rw [floodAuxF, if_pos hv, if_neg ht]
          apply ih
          simp only [List.length_cons] at h
          omega
      · rw [floodAux, dif_neg hv]
        rw [floodAuxF, if_neg hv]
        apply ih
        simp only [List.length_cons] at h
        omega

/-- C7: the flood-fill loop of `open_tile` terminates on every board state:
each processed cell goes `Hidden` to `Open` at most once and neighbors are
only pushed when a `Hidden Safe(0)` tile is opened, so running the loop with
fuel `9 * hiddenCount + 2` — one step per queue entry, at most 8 pushes per
opened tile — already reaches the end of the queue (`some` result) and
computes exactly the total flood fill. -/
theorem open_tile_terminates (g : MSGame) :
    floodAuxF (9 * hiddenCount g.board + 2) g [(g.cursor_x, g.cursor_y)]
      = some g.open_tile :=
  floodAuxF_complete _ g _ (by simp)

/-- C6: the flood-fill reveal never changes a Flagged or Open tile — every
such tile is exactly preserved — and if the cursor tile is not Hidden the
whole game state is unchanged. -/
theorem open_tile_no_reopen (g : MSGame) :
    (∀ (i : Nat) (t : Tile), g.board[i]? = some t →
        (t.visibility = TileVis.Flag ∨ t.visibility = TileVis.Open) →
        (g.open_tile).board[i]? = some t)
    ∧ ((g.get g.cursor_x g.cursor_y).visibility ≠ TileVis.Hidden →
        g.open_tile = g) := by
  constructor
  · intro i t hb hfo
    apply floodAux_preserves_nonHidden g _ i t hb
    rcases hfo with h | h <;> rw [h] <;> intro hcon <;> exact TileVis.noConfusion hcon
  · intro hnh
    unfold MSGame.open_tile
    by_cases hv : (((g.cursor_x, g.cursor_y) : Pos).1 < g.width
        ∧ ((g.cursor_x, g.cursor_y) : Pos).2 < g.height)
        ∧ g.index_of ((g.cursor_x, g.cursor_y) : Pos).1 ((g.cursor_x, g.cursor_y) : Pos).2
            < g.board.length
    · rw [floodAux, dif_pos hv, dif_neg hnh, floodAux]
    · rw [floodAux, dif_neg hv, floodAux]

/-- Witness for C6 at `gFlag`, whose cursor tile is Flagged: the reveal is a
no-op there. -/
theorem open_tile_no_reopen_witness : gFlag.open_tile = gFlag :=
  (open_tile_no_reopen gFlag).2 (by decide)

/-! ### Open tiles are never closed -/

theorem checkAux_snd (g : MSGame) (L : List Pos) (e : Bool) :
    (checkAux g L e).2 = g ∨ (checkAux g L e).2 = g.open_mines := by
  induction L generalizing e with
  | nil => left; rfl
  | cons p rest ih =>
    rcases hv : (g.get p.1 p.2).visibility with _ | _ | _ <;>
      rcases hc : (g.get p.1 p.2).contents with c | _
    · simpa [checkAux, hv, hc] using ih false
    · simpa [checkAux, hv, hc] using ih e
    · simpa [checkAux, hv, hc] using ih e
    · simpa [checkAux, hv, hc] using ih e
    · simpa [checkAux, hv, hc] using ih e
    · right
      simp [checkAux, hv, hc]

theorem open_mines_preserves_open (g : MSGame) (i : Nat) (t : Tile)
    (hb : g.board[i]? = some t) (ho : t.visibility = TileVis.Open) :
    (g.open_mines).board[i]? = some t := by
  obtain ⟨tc, tv⟩ := t
  cases ho
  unfold MSGame.open_mines
  simp only [List.getElem?_map, hb, Option.map_some']
  rcases hc : tc with c | _ <;> simp

theorem flag_tile_preserves_open (g : MSGame) (i : Nat) (t : Tile)
    (hb : g.board[i]? = some t) (ho : t.visibility = TileVis.Open) :
    (g.flag_tile).board[i]? = some t := by
  unfold MSGame.flag_tile
  rcases h : g.board[g.index_of g.cursor_x g.cursor_y]? with _ | t0
  · exact hb
  · rcases hv : t0.visibility with _ | _ | _
    · by_cases hij : g.index_of g.cursor_x g.cursor_y = i
      · subst hij
        rw [h] at hb
        cases Option.some_injective _ hb
        rw [ho] at hv
        exact TileVis.noConfusion hv
      · have hset : (g.board.set (g.index_of g.cursor_x g.cursor_y)
            (Tile.mk t0.contents TileVis.Flag))[i]? = some t := by
          rw [List.getElem?_set_ne hij]; exact hb
        simpa [hv] using hset
    · by_cases hij : g.index_of g.cursor_x g.cursor_y = i
      · subst hij
        rw [h] at hb
        cases Option.some_injective _ hb
        rw [ho] at hv
        exact TileVis.noConfusion hv
      · have hset : (g.board.set (g.index_of g.cursor_x g.cursor_y)
            (Tile.mk t0.contents TileVis.Hidden))[i]? = some t := by
          rw [List.getElem?_set_ne hij]; exact hb
        simpa [hv] using hset
    · simpa [hv] using hb

/-- C10: Open visibility is monotone across every board operation reachable
from the input loop: a tile that is Open before `move_cursor`, `flag_tile`,
`open_tile` or `check_board` is exactly preserved (same contents, still
Open) afterwards. -/
theorem open_visibility_monotone (g : MSGame) (d : Direction) (i : Nat) (t : Tile)
    (hb : g.board[i]? = some t) (ho : t.visibility = TileVis.Open) :
    (g.move_cursor d).board[i]? = some t
    ∧ (g.flag_tile).board[i]? = some t
    ∧ (g.open_tile).board[i]? = some t
    ∧ ((g.check_board).2).board[i]? = some t := by
  refine ⟨?_, ?_, ?_, ?_⟩
  · obtain ⟨gw, gh, gx, gy, gb, gm, gf⟩ := g
    cases d <;> exact hb
  · exact flag_tile_preserves_open g i t hb ho
  · apply floodAux_preserves_nonHidden g _ i t hb
    rw [ho]
    intro hcon
    exact TileVis.noConfusion hcon
  · rcases checkAux_snd g (allPositions g.width g.height) true with h2 | h2
    · show (checkAux g (allPositions g.width g.height) true).2.board[i]? = some t
      rw [h2]; exact hb
    · show (checkAux g (allPositions g.width g.height) true).2.board[i]? = some t
      rw [h2]; exact open_mines_preserves_open g i t hb ho

/-- Witness for C10 at the one-tile detonated board `gOpen`: its open mine
tile is preserved by all four operations. -/
theorem open_visibility_monotone_witness :
    (gOpen.move_cursor Direction.Left).board[0]? = some (Tile.mk TileContents.Mine TileVis.Open) :=
  (open_visibility_monotone gOpen Direction.Left 0
    (Tile.mk TileContents.Mine TileVis.Open) rfl rfl).1

/-! ### Correctness of the neighbor-count derivation -/

theorem bump_length (b : List Tile) (j : Nat) : (bump b j).length = b.length := by
  unfold bump
  rcases h : b[j]? with _ | t
  · rfl
  · rcases hc : t.contents with c | _ <;> simp [hc]

theorem bump_mineB (b : List Tile) (j i : Nat) :
    isMineB (((bump b j)[i]?).getD default).contents
      = isMineB ((b[i]?).getD default).contents := by
  unfold bump
  rcases h : b[j]? with _ | t
  · rfl
  · rcases hc : t.contents with c | _
    · by_cases hij : j = i
      · subst hij
        have hset := List.getElem?_set_eq_of_lt
          (Tile.mk (TileContents.Safe (c + 1)) t.visibility) (getElem?_some_lt h)
        simp [hc, hset, h, isMineB]
      · have hset : (b.set j (Tile.mk (TileContents.Safe (c + 1)) t.visibility))[i]?
            = b[i]? := List.getElem?_set_ne hij
        simp [hc, hset]
    · simp [hc]

theorem bump_safe_at (b : List Tile) (j i : Nat) (k : Nat) (v : TileVis)
    (hb : b[i]? = some (Tile.mk (TileContents.Safe k) v)) :
    (bump b j)[i]? = some (Tile.mk (TileContents.Safe (k + if j = i then 1 else 0)) v) := by
  by_cases hij : j = i
  · subst hij
    unfold bump
    rw [hb]
    have hset := List.getElem?_set_eq_of_lt
      (Tile.mk (TileContents.Safe (k + 1)) v) (getElem?_some_lt hb)
    simp [hset]
  · unfold bump
    rcases h : b[j]? with _ | t
    · simp [hb, hij]
    · rcases hc : t.contents with c | _
      · have hset : (b.set j (Tile.mk (TileContents.Safe (c + 1)) t.visibility))[i]?
            = b[i]? := List.getElem?_set_ne hij
        simp [hc, hset, hb, hij]
      · simp [hc, hb, hij]

theorem offsets_fold_mineB (w h : Nat) (c : Pos) (D : List (Int × Int)) :
    ∀ (b : List Tile) (i : Nat),
      isMineB (((D.foldl (offsetStep w h c) b)[i]?).getD default).contents
        = isMineB ((b[i]?).getD default).contents := by
  induction D with
  | nil => intro b i; rfl
  | cons d D ih =>
    intro b i
    rw [List.foldl_cons, ih]
    unfold offsetStep
    by_cases hval : wrapping_add c.1 d.1 < w ∧ wrapping_add c.2 d.2 < h
    · rw [if_pos hval]
      exact bump_mineB b _ i
    · rw [if_neg hval]

theorem offsets_fold_length (w h : Nat) (c : Pos) (D : List (Int × Int)) :
    ∀ (b : List Tile),
      (D.foldl (offsetStep w h c) b).length = b.length := by
  induction D with
  | nil => intro b; rfl
  | cons d D ih =>
    intro b
    rw [List.foldl_cons, ih]
    unfold offsetStep
    by_cases hval : wrapping_add c.1 d.1 < w ∧ wrapping_add c.2 d.2 < h
    · rw [if_pos hval]
      exact bump_length b _
    · rw [if_neg hval]

theorem offsets_fold_safe (w h : Nat) (c : Pos) (i : Nat) (D : List (Int × Int)) :
    ∀ (b : List Tile) (k : Nat) (v : TileVis),
      b[i]? = some (Tile.mk (TileContents.Safe k) v) →
      (D.foldl (offsetStep w h c) b)[i]?
        = some (Tile.mk (TileContents.Safe (k + D.countP (fun d =>
            decide (wrapping_add c.1 d.1 < w ∧ wrapping_add c.2 d.2 < h
              ∧ wrapping_add c.1 d.1 + wrapping_add c.2 d.2 * w = i)))) v) := by
  induction D with
  | nil =>
    intro b k v hb
    simpa using hb
  | cons d D ih =>
    intro b k v hb
    by_cases hval : wrapping_add c.1 d.1 < w ∧ wrapping_add c.2 d.2 < h
    · by_cases hidx : wrapping_add c.1 d.1 + wrapping_add c.2 d.2 * w = i
      · have hstep : offsetStep w h c b d = bump b i := by
          unfold offsetStep
          rw [if_pos hval, hidx]
        rw [List.foldl_cons, hstep]
        have hb1 := bump_safe_at b i i k v hb
        rw [if_pos rfl] at hb1
        rw [ih (bump b i) (k + 1) v hb1]
        congr 3
        simp [List.countP_cons, hval, hidx]
        omega
      · have hstep : offsetStep w h c b d
            = bump b (wrapping_add c.1 d.1 + wrapping_add c.2 d.2 * w) := by
          unfold offsetStep
          rw [if_pos hval]
        rw [List.foldl_cons, hstep]
        have hb1 := bump_safe_at b (wrapping_add c.1 d.1 + wrapping_add c.2 d.2 * w) i k v hb
        rw [if_neg hidx] at hb1
        simp only [Nat.add_zero] at hb1
        rw [ih _ k v hb1]
        congr 3
        simp [List.countP_cons, hval, hidx]
    · have hstep : offsetStep w h c b d = b := by
        unfold offsetStep
        rw [if_neg hval]
      rw [List.foldl_cons, hstep, ih b k v hb]
      congr 3
      simp [List.countP_cons, hval]
      intro h1 h2
      exact (hval ⟨h1, h2⟩).elim

theorem countStep_mineB (w h : Nat) (b : List Tile) (c : Pos) (i : Nat) :
    isMineB (((countStep w h b c)[i]?).getD default).contents
      = isMineB ((b[i]?).getD default).contents := by
  unfold countStep
  by_cases hm : isMineB ((b[c.1 + c.2 * w]?).getD default).contents = true
  · rw [if_pos hm]
    unfold mineSpread
    exact offsets_fold_mineB w h c NEIGHBOR_OFFSETS b i
  · rw [if_neg hm]

theorem countStep_length (w h : Nat) (b : List Tile) (c : Pos) :
    (countStep w h b c).length = b.length := by
  unfold countStep
  by_cases hm : isMineB ((b[c.1 + c.2 * w]?).getD default).contents = true
  · rw [if_pos hm]
    unfold mineSpread
    exact offsets_fold_length w h c NEIGHBOR_OFFSETS b
  · rw [if_neg hm]

theorem countStep_safe_at (w h : Nat) (b : List Tile) (c : Pos) (i : Nat) (k : Nat) (v : TileVis)
    (hb : b[i]? = some (Tile.mk (TileContents.Safe k) v)) :
    (countStep w h b c)[i]? = some (Tile.mk (TileContents.Safe (k + contrib w h b c i)) v) := by
  unfold countStep contrib
  by_cases hm : isMineB ((b[c.1 + c.2 * w]?).getD default).contents = true
  · rw [if_pos hm, if_pos hm]
    unfold mineSpread hits
    exact offsets_fold_safe w h c i NEIGHBOR_OFFSETS b k v hb
  · rw [if_neg hm, if_neg hm]
    simpa using hb

theorem contrib_invariant (w h : Nat) (b : List Tile) (c c' : Pos) (i : Nat) :
    contrib w h (countStep w h b c') c i = contrib w h b c i := by
  unfold contrib
  rw [countStep_mineB]

theorem centers_fold_mineB (w h : Nat) (L : List Pos) :
    ∀ (b : List Tile) (i : Nat),
      isMineB (((L.foldl (countStep w h) b)[i]?).getD default).contents
        = isMineB ((b[i]?).getD default).contents := by
  induction L with
  | nil => intro b i; rfl
  | cons c L ih =>
    intro b i
    rw [List.foldl_cons, ih, countStep_mineB]

theorem centers_fold_length (w h : Nat) (L : List Pos) :
    ∀ (b : List Tile), (L.foldl (countStep w h) b).length = b.length := by
  induction L with
  | nil => intro b; rfl
  | cons c L ih =>
    intro b
    rw [List.foldl_cons, ih, countStep_length]

theorem centers_fold_safe (w h : Nat) (i : Nat) (L : List Pos) :
    ∀ (b : List Tile) (k : Nat) (v : TileVis),
      b[i]? = some (Tile.mk (TileContents.Safe k) v) →
      (L.foldl (countStep w h) b)[i]?
        = some (Tile.mk (TileContents.Safe
            (k + (L.map (fun c => contrib w h b c i)).sum)) v) := by
  induction L with
  | nil =>
    intro b k v hb
    simpa using hb
  | cons c L ih =>
    intro b k v hb
    rw [List.foldl_cons]
    have hb1 := countStep_safe_at w h b c i k v hb
    rw [ih _ _ _ hb1]
    have hmap : L.map (fun c' => contrib w h (countStep w h b c) c' i)
        = L.map (fun c' => contrib w h b c' i) :=
      List.map_congr_left (fun c' _ => contrib_invariant w h b c' c i)
    rw [hmap]
    congr 3
    simp [List.map_cons, List.sum_cons]
    omega

theorem wrapping_add_small (a : Nat) (d : Int) (hd : d = -1 ∨ d = 0 ∨ d = 1)
    (bb w : Nat) (ha : a < w) (hb : bb < w) (hw : w < USIZE) :
    wrapping_add a d = bb ↔ (a : Int) + d = (bb : Int) := by
  have hU : 1 < USIZE := one_lt_USIZE
  rcases hd with rfl | rfl | rfl
  · have hmod : (((-1 : Int) % (USIZE : Int)).toNat) = USIZE - 1 := by decide
    unfold wrapping_add
    rw [hmod]
    by_cases h0 : a = 0
    · subst h0
      rw [Nat.zero_add, Nat.mod_eq_of_lt (by omega)]
      omega
    · rw [show a + (USIZE - 1) = (a - 1) + 1 * USIZE by omega,
        Nat.add_mul_mod_self_right, Nat.mod_eq_of_lt (by omega)]
      omega
  · have hmod : (((0 : Int) % (USIZE : Int)).toNat) = 0 := by decide
    unfold wrapping_add
    rw [hmod, Nat.add_zero, Nat.mod_eq_of_lt (by omega)]
    omega
  · have hmod : (((1 : Int) % (USIZE : Int)).toNat) = 1 := by decide
    unfold wrapping_add
    rw [hmod, Nat.mod_eq_of_lt (by omega)]
    omega

theorem index_inj (w x x' y y' : Nat) (hx : x < w) (hx' : x' < w)
    (heq : x + y * w = x' + y' * w) : x = x' ∧ y = y' := by
  have hw : 0 < w := lt_of_le_of_lt (Nat.zero_le x) hx
  have h1 : (x + y * w) % w = x := by
    rw [Nat.add_mul_mod_self_right, Nat.mod_eq_of_lt hx]
  have h2 : (x' + y' * w) % w = x' := by
    rw [Nat.add_mul_mod_self_right, Nat.mod_eq_of_lt hx']
  have hxx : x = x' := by rw [← h1, ← h2, heq]
  refine ⟨hxx, ?_⟩
  subst hxx
  have := Nat.add_left_cancel heq
  exact Nat.eq_of_mul_eq_mul_right hw this

theorem offset_hit_iff (w h : Nat) (hw : w < USIZE) (hh : h < USIZE) (c p : Pos)
    (hc1 : c.1 < w) (hc2 : c.2 < h) (hp1 : p.1 < w) (hp2 : p.2 < h)
    (dx dy : Int) (hdx : dx = -1 ∨ dx = 0 ∨ dx = 1) (hdy : dy = -1 ∨ dy = 0 ∨ dy = 1) :
    (wrapping_add c.1 dx < w ∧ wrapping_add c.2 dy < h
        ∧ wrapping_add c.1 dx + wrapping_add c.2 dy * w = p.1 + p.2 * w)
      ↔ ((c.1 : Int) + dx = (p.1 : Int) ∧ (c.2 : Int) + dy = (p.2 : Int)) := by
  constructor
  · rintro ⟨h1, h2, h3⟩
    obtain ⟨e1, e2⟩ := index_inj w _ _ _ _ h1 hp1 h3
    exact ⟨(wrapping_add_small c.1 dx hdx p.1 w hc1 hp1 hw).mp e1,
      (wrapping_add_small c.2 dy hdy p.2 h hc2 hp2 hh).mp e2⟩
  · rintro ⟨e1, e2⟩
    have w1 : wrapping_add c.1 dx = p.1 :=
      (wrapping_add_small c.1 dx hdx p.1 w hc1 hp1 hw).mpr e1
    have w2 : wrapping_add c.2 dy = p.2 :=
      (wrapping_add_small c.2 dy hdy p.2 h hc2 hp2 hh).mpr e2
    exact ⟨w1 ▸ hp1, w2 ▸ hp2, by rw [w1, w2]⟩

theorem offsets_nodup : NEIGHBOR_OFFSETS.Nodup := by decide

theorem countP_eq_ite_mem {α : Type} [DecidableEq α] (l : List α) (hnd : l.Nodup) (a : α) :
    l.countP (fun x => decide (x = a)) = if a ∈ l then 1 else 0 := by
  induction l with
  | nil => simp
  | cons x xs ih =>
    rw [List.countP_cons]
    have hx : x ∉ xs := (List.nodup_cons.mp hnd).1
    have ih2 := ih (List.nodup_cons.mp hnd).2
    by_cases hax : x = a
    · subst hax
      rw [ih2]
      simp [hx]
    · rw [ih2]
      by_cases hmem : a ∈ xs <;> simp [hmem, hax, List.mem_cons, Ne.symm hax]

theorem hits_eq (w h : Nat) (hw : w < USIZE) (hh : h < USIZE) (c p : Pos)
    (hc1 : c.1 < w) (hc2 : c.2 < h) (hp1 : p.1 < w) (hp2 : p.2 < h) :
    hits w h c (p.1 + p.2 * w) = if adjacent c p then 1 else 0 := by
  unfold hits
  have hstep1 : NEIGHBOR_OFFSETS.countP (fun d =>
      decide (wrapping_add c.1 d.1 < w ∧ wrapping_add c.2 d.2 < h
        ∧ wrapping_add c.1 d.1 + wrapping_add c.2 d.2 * w = p.1 + p.2 * w))
      = NEIGHBOR_OFFSETS.countP (fun d =>
          decide (d = (((p.1 : Int) - c.1, (p.2 : Int) - c.2) : Int × Int))) := by
    apply List.countP_congr
    intro d hd
    have hdc1 : d.1 = -1 ∨ d.1 = 0 ∨ d.1 = 1 := by
      simp only [NEIGHBOR_OFFSETS, List.mem_cons, List.not_mem_nil, or_false] at hd
      rcases hd with rfl | rfl | rfl | rfl | rfl | rfl | rfl | rfl <;> simp
    have hdc2 : d.2 = -1 ∨ d.2 = 0 ∨ d.2 = 1 := by
      simp only [NEIGHBOR_OFFSETS, List.mem_cons, List.not_mem_nil, or_false] at hd
      rcases hd with rfl | rfl | rfl | rfl | rfl | rfl | rfl | rfl <;> simp
    simp only [decide_eq_true_eq]
    rw [offset_hit_iff w h hw hh c p hc1 hc2 hp1 hp2 d.1 d.2 hdc1 hdc2]
    rw [Prod.ext_iff]
    constructor
    · rintro ⟨e1, e2⟩
      constructor <;> omega
    · rintro ⟨e1, e2⟩
      constructor <;> omega
  rw [hstep1, countP_eq_ite_mem NEIGHBOR_OFFSETS offsets_nodup]
  unfold adjacent
  by_cases hmem : (((p.1 : Int) - c.1, (p.2 : Int) - c.2) : Int × Int) ∈ NEIGHBOR_OFFSETS
  · rw [if_pos hmem, if_pos (by simp [hmem])]
  · rw [if_neg hmem, if_neg (by simp [hmem])]

theorem sum_indicator {α : Type} (L : List α) (f : α → Bool) :
    (L.map (fun a => if f a then 1 else 0)).sum = (L.filter f).length := by
  induction L with
  | nil => rfl
  | cons x xs ih =>
    simp only [List.map_cons, List.sum_cons, ih, List.filter_cons]
    by_cases hx : f x = true <;> simp [hx] <;> omega

theorem contrib_sum (w h : Nat) (hw : w < USIZE) (hh : h < USIZE) (b : List Tile)
    (p : Pos) (hp1 : p.1 < w) (hp2 : p.2 < h) :
    ((allPositions w h).map (fun c => contrib w h b c (p.1 + p.2 * w))).sum
      = mineNeighborCount w h b p := by
  have hmap : (allPositions w h).map (fun c => contrib w h b c (p.1 + p.2 * w))
      = (allPositions w h).map (fun c =>
          if (adjacent c p && isMineB ((b[c.1 + c.2 * w]?).getD default).contents) then 1
          else 0) := by
    apply List.map_congr_left
    intro c hc
    obtain ⟨hcx, hcy⟩ := (mem_allPositions w h c).mp hc
    unfold contrib
    rw [hits_eq w h hw hh c p hcx hcy hp1 hp2]
    by_cases hm : isMineB ((b[c.1 + c.2 * w]?).getD default).contents = true
    · by_cases ha : adjacent c p = true <;> simp [hm, ha]
    · by_cases ha : adjacent c p = true <;> simp [hm, ha]
  rw [hmap, sum_indicator]
  rfl

theorem newBoard_mem (w h m : Nat) (t : Tile) (ht : t ∈ MSGame.newBoard w h m) :
    t = Tile.mk (TileContents.Safe 0) TileVis.Hidden
      ∨ t = Tile.mk TileContents.Mine TileVis.Hidden := by
  unfold MSGame.newBoard at ht
  rcases List.mem_append.mp ht with h1 | h1
  · left
    exact (List.mem_replicate.mp h1).2
  · right
    exact (List.mem_replicate.mp h1).2

theorem newBoard_length (w h m : Nat) (hm : m ≤ w * h) :
    (MSGame.newBoard w h m).length = w * h := by
  unfold MSGame.newBoard
  rw [List.length_append, List.length_replicate, List.length_replicate]
  omega

/-- C4: on every constructed board (any width, height and any permutation
`b` of the pre-shuffle tile sequence) with `mines ≤ width * height`, every
safe tile's derived count equals the brute-force recomputed number of its
grid-adjacent mine tiles. -/
theorem count_neighbors_correct (w h m : Nat) (hw : w < USIZE) (hh : h < USIZE)
    (hm : m ≤ w * h) (b : List Tile) (hb : b.Perm (MSGame.newBoard w h m))
    (p : Pos) (hp : p ∈ allPositions w h) (k : Nat)
    (hk : ((MSGame.new w h m b).get p.1 p.2).contents = TileContents.Safe k) :
    k = mineNeighborCount w h (MSGame.new w h m b).board p := by
  obtain ⟨hp1, hp2⟩ := (mem_allPositions w h p).mp hp
  have hboard : (MSGame.new w h m b).board = (allPositions w h).foldl (countStep w h) b := rfl
  have hlenb : b.length = w * h := by
    rw [hb.length_eq, newBoard_length w h m hm]
  have hi : p.1 + p.2 * w < b.length := by
    rw [hlenb]
    have h1 : p.2 * w ≤ (h - 1) * w := Nat.mul_le_mul_right w (by omega)
    have h2 : w + (h - 1) * w = w * h := by
      have hh1 : 1 ≤ h := by omega
      calc w + (h - 1) * w = (1 + (h - 1)) * w := by rw [Nat.add_mul, Nat.one_mul]
        _ = h * w := by rw [Nat.add_sub_cancel' hh1]
        _ = w * h := Nat.mul_comm h w
    omega
  have hidx : (MSGame.new w h m b).get p.1 p.2
      = (((allPositions w h).foldl (countStep w h) b)[p.1 + p.2 * w]?).getD default := rfl
  have hsome : b[p.1 + p.2 * w]? = some b[p.1 + p.2 * w] := List.getElem?_eq_getElem hi
  rcases newBoard_mem w h m _ (hb.mem_iff.mp (List.getElem_mem hi)) with hcase | hcase
  · -- the tile at p started as Safe 0, Hidden
    have hb0 : b[p.1 + p.2 * w]? = some (Tile.mk (TileContents.Safe 0) TileVis.Hidden) := by
      rw [hsome, hcase]
    have hfin := centers_fold_safe w h (p.1 + p.2 * w) (allPositions w h) b 0 TileVis.Hidden hb0
    rw [hidx, hfin] at hk
    simp only [Option.getD_some] at hk
    injection hk with hk
    rw [hboard]
    unfold mineNeighborCount
    have hfilter : (allPositions w h).filter (fun c =>
          adjacent c p && isMineB (((((allPositions w h).foldl (countStep w h) b))[c.1 + c.2 * w]?).getD
            default).contents)
        = (allPositions w h).filter (fun c =>
            adjacent c p && isMineB ((b[c.1 + c.2 * w]?).getD default).contents) := by
      apply List.filter_congr
      intro c _
      rw [centers_fold_mineB w h (allPositions w h) b (c.1 + c.2 * w)]
    rw [hfilter]
    have hsum := contrib_sum w h hw hh b p hp1 hp2
    unfold mineNeighborCount at hsum
    omega
  · -- the tile at p started as a mine: its contents stay a mine, contradiction
    have hb0 : b[p.1 + p.2 * w]? = some (Tile.mk TileContents.Mine TileVis.Hidden) := by
      rw [hsome, hcase]
    have hmine := centers_fold_mineB w h (allPositions w h) b (p.1 + p.2 * w)
    rw [hb0] at hmine
    simp only [Option.getD_some] at hmine
    rw [hidx] at hk
    rw [hk] at hmine
    simp [isMineB] at hmine

/-- Witness for C4 on the concrete 3-by-3 board with its single mine at
position (2,2): the safe tile at (1,1) is derived with count 1, which equals
the brute-force recount. -/
theorem count_neighbors_correct_witness :
    1 = mineNeighborCount 3 3 (MSGame.new 3 3 1 (MSGame.newBoard 3 3 1)).board (1, 1) :=
  count_neighbors_correct 3 3 1 (by decide) (by decide) (by decide)
    (MSGame.newBoard 3 3 1) (List.Perm.refl _) (1, 1) (by decide) 1 (by decide)

/-! ### The flag-count invariant of reachable states -/

theorem bump_countP_vis (b : List Tile) (j : Nat) (q : TileVis → Bool) :
    (bump b j).countP (fun t => q t.visibility) = b.countP (fun t => q t.visibility) := by
  unfold bump
  rcases h : b[j]? with _ | t
  · rfl
  · obtain ⟨tc, tv⟩ := t
    rcases tc with c | _
    · have hlt := getElem?_some_lt h
      have hget : b[j] = Tile.mk (TileContents.Safe c) tv := by
        have h0 := List.getElem?_eq_getElem hlt
        rw [h] at h0
        exact (Option.some_injective _ h0).symm
      show (b.set j (Tile.mk (TileContents.Safe (c + 1)) tv)).countP
          (fun t => q t.visibility) = b.countP (fun t => q t.visibility)
      have hset := List.countP_set (fun t => q t.visibility) b j
        (Tile.mk (TileContents.Safe (c + 1)) tv) hlt
      have hbound := List.boole_getElem_le_countP (fun t => q t.visibility) b j hlt
      have e1 : (Tile.mk (TileContents.Safe c) tv).visibility = tv := rfl
      have e2 : (Tile.mk (TileContents.Safe (c + 1)) tv).visibility = tv := rfl
      simp only [hget, e1, e2] at hset hbound
      simp only [hset, e2]
      omega
    · rfl

theorem offsets_fold_countP_vis (w h : Nat) (c : Pos) (q : TileVis → Bool)
    (D : List (Int × Int)) : ∀ (b : List Tile),
    (D.foldl (offsetStep w h c) b).countP (fun t => q t.visibility)
      = b.countP (fun t => q t.visibility) := by
  induction D with
  | nil => intro b; rfl
  | cons d D ih =>
    intro b
    rw [List.foldl_cons, ih]
    unfold offsetStep
    by_cases hval : wrapping_add c.1 d.1 < w ∧ wrapping_add c.2 d.2 < h
    · rw [if_pos hval]
      exact bump_countP_vis b _ q
    · rw [if_neg hval]

theorem countStep_countP_vis (w h : Nat) (b : List Tile) (c : Pos) (q : TileVis → Bool) :
    (countStep w h b c).countP (fun t => q t.visibility)
      = b.countP (fun t => q t.visibility) := by
  unfold countStep
  by_cases hm : isMineB ((b[c.1 + c.2 * w]?).getD default).contents = true
  · rw [if_pos hm]
    unfold mineSpread
    exact offsets_fold_countP_vis w h c q NEIGHBOR_OFFSETS b
  · rw [if_neg hm]

theorem centers_fold_countP_vis (w h : Nat) (q : TileVis → Bool) (L : List Pos) :
    ∀ (b : List Tile),
      (L.foldl (countStep w h) b).countP (fun t => q t.visibility)
        = b.countP (fun t => q t.visibility) := by
  induction L with
  | nil => intro b; rfl
  | cons c L ih =>
    intro b
    rw [List.foldl_cons, ih, countStep_countP_vis]

theorem centers_fold_flagCount (w h : Nat) (L : List Pos) (b : List Tile) :
    flagCount (L.foldl (countStep w h) b) = flagCount b :=
  centers_fold_countP_vis w h (fun v => decide (v = TileVis.Flag)) L b

theorem newBoard_flagCount (w h m : Nat) : flagCount (MSGame.newBoard w h m) = 0 := by
  unfold flagCount
  rw [List.countP_eq_zero]
  intro t ht
  rcases newBoard_mem w h m t ht with rfl | rfl <;> simp

theorem index_lt (w h x y : Nat) (hx : x < w) (hy : y < h) : x + y * w < w * h := by
  have h1 : y * w ≤ (h - 1) * w := Nat.mul_le_mul_right w (by omega)
  have h2 : w + (h - 1) * w = w * h := by
    have hh1 : 1 ≤ h := by omega
    calc w + (h - 1) * w = (1 + (h - 1)) * w := by rw [Nat.add_mul, Nat.one_mul]
      _ = h * w := by rw [Nat.add_sub_cancel' hh1]
      _ = w * h := Nat.mul_comm h w
  omega

theorem move_cursor_inbounds (g : MSGame) (d : Direction)
    (hw : 0 < g.width) (hh : 0 < g.height)
    (hx : g.cursor_x < g.width) (hy : g.cursor_y < g.height) :
    (g.move_cursor d).cursor_x < g.width ∧ (g.move_cursor d).cursor_y < g.height
      ∧ (g.move_cursor d).width = g.width ∧ (g.move_cursor d).height = g.height
      ∧ (g.move_cursor d).board = g.board ∧ (g.move_cursor d).flags = g.flags := by
  obtain ⟨gw, gh, gx, gy, gb, gm, gf⟩ := g
  simp only at hw hh hx hy
  cases d with
  | Up =>
    refine ⟨hx, ?_, rfl, rfl, rfl, rfl⟩
    show min (wrapping_sub gy 1) (gh - 1) < gh
    exact lt_of_le_of_lt (min_le_right _ _) (by omega)
  | Down =>
    exact ⟨hx, Nat.mod_lt _ hh, rfl, rfl, rfl, rfl⟩
  | Left =>
    refine ⟨?_, hy, rfl, rfl, rfl, rfl⟩
    show min (wrapping_sub gx 1) (gw - 1) < gw
    exact lt_of_le_of_lt (min_le_right _ _) (by omega)
  | Right =>
    exact ⟨Nat.mod_lt _ hw, hy, rfl, rfl, rfl, rfl⟩

theorem open_mines_fields (g : MSGame) :
    (g.open_mines).width = g.width ∧ (g.open_mines).height = g.height
      ∧ (g.open_mines).cursor_x = g.cursor_x ∧ (g.open_mines).cursor_y = g.cursor_y
      ∧ (g.open_mines).flags = g.flags
      ∧ (g.open_mines).board.length = g.board.length := by
  unfold MSGame.open_mines
  exact ⟨rfl, rfl, rfl, rfl, rfl, by simp⟩

theorem open_mines_flagCount_le (g : MSGame) :
    flagCount (g.open_mines).board ≤ flagCount g.board := by
  unfold MSGame.open_mines flagCount
  show (g.board.map _).countP _ ≤ _
  rw [List.countP_map]
  apply List.countP_mono_left
  intro t _ hq
  rcases hc : t.contents with c | _
  · simpa [Function.comp, hc] using hq
  · simp [Function.comp, hc] at hq

theorem flag_tile_fields (g : MSGame) :
    (g.flag_tile).width = g.width ∧ (g.flag_tile).height = g.height
      ∧ (g.flag_tile).cursor_x = g.cursor_x ∧ (g.flag_tile).cursor_y = g.cursor_y
      ∧ (g.flag_tile).mines = g.mines
      ∧ (g.flag_tile).board.length = g.board.length := by
  unfold MSGame.flag_tile
  rcases h : g.board[g.index_of g.cursor_x g.cursor_y]? with _ | t
  · exact ⟨rfl, rfl, rfl, rfl, rfl, rfl⟩
  · obtain ⟨tc, tv⟩ := t
    rcases tv with _ | _ | _
    · exact ⟨rfl, rfl, rfl, rfl, rfl, List.length_set ..⟩
    · exact ⟨rfl, rfl, rfl, rfl, rfl, List.length_set ..⟩
    · exact ⟨rfl, rfl, rfl, rfl, rfl, rfl⟩

theorem flag_tile_flagCount (g : MSGame) (hle : flagCount g.board ≤ g.flags) :
    flagCount (g.flag_tile).board ≤ (g.flag_tile).flags := by
  unfold MSGame.flag_tile
  rcases h : g.board[g.index_of g.cursor_x g.cursor_y]? with _ | t
  · exact hle
  · obtain ⟨tc, tv⟩ := t
    have hlt := getElem?_some_lt h
    have hget : g.board[g.index_of g.cursor_x g.cursor_y] = Tile.mk tc tv := by
      have h0 := List.getElem?_eq_getElem hlt
      rw [h] at h0
      exact (Option.some_injective _ h0).symm
    rcases tv with _ | _ | _
    · show flagCount (g.board.set (g.index_of g.cursor_x g.cursor_y)
          (Tile.mk tc TileVis.Flag)) ≤ g.flags + 1
      unfold flagCount at hle ⊢
      have hset := List.countP_set (fun t => decide (t.visibility = TileVis.Flag))
        g.board _ (Tile.mk tc TileVis.Flag) hlt
      simp only [hget] at hset
      simp only [hset]
      simp
      omega
    · have hpos : 0 < List.countP (fun t => decide (t.visibility = TileVis.Flag)) g.board :=
        List.countP_pos_iff.mpr ⟨_, List.getElem_mem hlt, by simp [hget]⟩
      show flagCount (g.board.set (g.index_of g.cursor_x g.cursor_y)
          (Tile.mk tc TileVis.Hidden)) ≤ g.flags - 1
      unfold flagCount at hle ⊢
      have hset := List.countP_set (fun t => decide (t.visibility = TileVis.Flag))
        g.board _ (Tile.mk tc TileVis.Hidden) hlt
      simp only [hget] at hset
      simp only [hset]
      simp
      omega
    · exact hle

theorem reachable_inv (w h m : Nat) (hw : 0 < w) (hh : 0 < h) (hm : m ≤ w * h)
    (g : MSGame) (hg : Reachable w h m g) :
    g.width = w ∧ g.height = h ∧ g.cursor_x < w ∧ g.cursor_y < h
      ∧ g.board.length = w * h ∧ flagCount g.board ≤ g.flags := by
  induction hg with
  | init b hbperm =>
    refine ⟨rfl, rfl, hw, hh, ?_, ?_⟩
    · show ((allPositions w h).foldl (countStep w h) b).length = w * h
      rw [centers_fold_length, hbperm.length_eq, newBoard_length w h m hm]
    · show flagCount ((allPositions w h).foldl (countStep w h) b) ≤ 0
      rw [centers_fold_flagCount]
      unfold flagCount
      rw [hbperm.countP_eq]
      have h0 := newBoard_flagCount w h m
      unfold flagCount at h0
      omega
  | step g g' hg hs ih =>
    obtain ⟨e1, e2, e3, e4, e5, e6⟩ := ih
    cases hs with
    | move d =>
      obtain ⟨m1, m2, m3, m4, m5, m6⟩ :=
        move_cursor_inbounds g d (e1 ▸ hw) (e2 ▸ hh) (e1 ▸ e3) (e2 ▸ e4)
      refine ⟨m3.trans e1, m4.trans e2, ?_, ?_, ?_, ?_⟩
      · rw [← e1]; exact m1
      · rw [← e2]; exact m2
      · rw [m5]; exact e5
      · rw [m5, m6]; exact e6
    | flag =>
      obtain ⟨f1, f2, f3, f4, f5, f6⟩ := flag_tile_fields g
      refine ⟨f1.trans e1, f2.trans e2, ?_, ?_, ?_, ?_⟩
      · rw [f3]; exact e3
      · rw [f4]; exact e4
      · rw [f6]; exact e5
      · exact flag_tile_flagCount g e6
    | reveal =>
      obtain ⟨r1, r2, r3, r4, r5, r6, r7, r8⟩ :=
        floodAux_fields g [(g.cursor_x, g.cursor_y)]
      refine ⟨r1.trans e1, r2.trans e2, ?_, ?_, ?_, ?_⟩
      · show (floodAux g [(g.cursor_x, g.cursor_y)]).cursor_x < w
        rw [r3]; exact e3
      · show (floodAux g [(g.cursor_x, g.cursor_y)]).cursor_y < h
        rw [r4]; exact e4
      · show (floodAux g [(g.cursor_x, g.cursor_y)]).board.length = w * h
        rw [r7]; exact e5
      · show flagCount (floodAux g [(g.cursor_x, g.cursor_y)]).board
          ≤ (floodAux g [(g.cursor_x, g.cursor_y)]).flags
        rw [r8, r6]; exact e6
    | check =>
      rcases checkAux_snd g (allPositions g.width g.height) true with hc | hc
      · have hcb : (g.check_board).2 = g := hc
        rw [hcb]
        exact ⟨e1, e2, e3, e4, e5, e6⟩
      · have hcb : (g.check_board).2 = g.open_mines := hc
        rw [hcb]
        obtain ⟨o1, o2, o3, o4, o5, o6⟩ := open_mines_fields g
        refine ⟨o1.trans e1, o2.trans e2, ?_, ?_, ?_, ?_⟩
        · rw [o3]; exact e3
        · rw [o4]; exact e4
        · rw [o6]; exact e5
        · rw [o5]
          exact le_trans (open_mines_flagCount_le g) e6

/-- C9: on every reachable board state, `flag_tile` follows the exact state
machine at the cursor tile: Hidden becomes Flagged with `flags` incremented,
Flagged becomes Hidden with `flags` decremented — and the decrement is safe
because `flags ≥ 1` holds whenever the cursor tile is Flagged, so the
`usize` counter never underflows — and Open is a no-op. -/
theorem flag_tile_state_machine (w h m : Nat) (hw : 0 < w) (hh : 0 < h)
    (hm : m ≤ w * h) (g : MSGame) (hg : Reachable w h m g) :
    ((g.get g.cursor_x g.cursor_y).visibility = TileVis.Hidden →
        (g.flag_tile).flags = g.flags + 1
          ∧ ((g.flag_tile).get g.cursor_x g.cursor_y).visibility = TileVis.Flag)
      ∧ ((g.get g.cursor_x g.cursor_y).visibility = TileVis.Flag →
          1 ≤ g.flags ∧ (g.flag_tile).flags = g.flags - 1
            ∧ ((g.flag_tile).get g.cursor_x g.cursor_y).visibility = TileVis.Hidden)
      ∧ ((g.get g.cursor_x g.cursor_y).visibility = TileVis.Open →
          g.flag_tile = g) := by
  obtain ⟨e1, e2, e3, e4, e5, e6⟩ := reachable_inv w h m hw hh hm g hg
  have hi : g.index_of g.cursor_x g.cursor_y < g.board.length := by
    show g.cursor_x + g.cursor_y * g.width < g.board.length
    rw [e1, e5]
    exact index_lt w h _ _ e3 e4
  have hsome : g.board[g.index_of g.cursor_x g.cursor_y]?
      = some g.board[g.index_of g.cursor_x g.cursor_y] := List.getElem?_eq_getElem hi
  have hget : g.get g.cursor_x g.cursor_y = g.board[g.index_of g.cursor_x g.cursor_y] := by
    unfold MSGame.get
    rw [hsome]
    rfl
  refine ⟨?_, ?_, ?_⟩
  · intro hvis
    rw [hget] at hvis
    unfold MSGame.flag_tile
    rw [hsome]
    simp only [hvis]
    refine ⟨trivial, ?_⟩
    show (((g.board.set (g.index_of g.cursor_x g.cursor_y)
        (Tile.mk g.board[g.index_of g.cursor_x g.cursor_y].contents TileVis.Flag))[
          g.index_of g.cursor_x g.cursor_y]?).getD default).visibility = TileVis.Flag
    rw [List.getElem?_set_eq_of_lt
      (Tile.mk g.board[g.index_of g.cursor_x g.cursor_y].contents TileVis.Flag) hi]
    rfl
  · intro hvis
    rw [hget] at hvis
    have hpos : 0 < flagCount g.board := by
      unfold flagCount
      exact List.countP_pos_iff.mpr ⟨_, List.getElem_mem hi, by simp [hvis]⟩
    refine ⟨by omega, ?_, ?_⟩
    · unfold MSGame.flag_tile
      rw [hsome]
      simp only [hvis]
    · unfold MSGame.flag_tile
      rw [hsome]
      simp only [hvis]
      show (((g.board.set (g.index_of g.cursor_x g.cursor_y)
          (Tile.mk g.board[g.index_of g.cursor_x g.cursor_y].contents TileVis.Hidden))[
            g.index_of g.cursor_x g.cursor_y]?).getD default).visibility = TileVis.Hidden
      rw [List.getElem?_set_eq_of_lt
        (Tile.mk g.board[g.index_of g.cursor_x g.cursor_y].contents TileVis.Hidden) hi]
      rfl
  · intro hvis
    rw [hget] at hvis
    unfold MSGame.flag_tile
    rw [hsome]
    simp only [hvis]

/-- Witness for C9 at the fresh 1-by-1 mine-free board `gNew110`, whose
cursor tile is Hidden: flagging it increments the counter and flags the
tile. -/
theorem flag_tile_state_machine_witness :
    (gNew110.flag_tile).flags = gNew110.flags + 1
      ∧ ((gNew110.flag_tile).get gNew110.cursor_x gNew110.cursor_y).visibility
          = TileVis.Flag :=
  (flag_tile_state_machine 1 1 0 (by decide) (by decide) (by decide) gNew110
    (Reachable.init _ (List.Perm.refl _))).1 (by decide)
